import Mathlib

/-!
# Verification of the directory-tree-maker rule engine

A shallow embedding of `directory-tree-maker.py`: the glob pattern matcher
(`fnmatch.fnmatchcase`), the visibility resolver (`_is_visible`), the
override lookup (`_override_for`), the depth-budget helpers
(`_effective_global_remaining`, `_remaining_from_override`), the tree walk
(`_walk_tree`/`walk`), the skipped-subtree scanner (`_scan_stats`), the
report computation (`_compute_reports`) and the two report renderers
(`_render_depth_pruned`, `_render_rule_excluded`), together with
`_compress_path` and the formatting helpers.

Modelling conventions:
* The filesystem is a finite tree `FSNode`.  A directory carries a
  `readable` flag: `readable = false` models a directory whose enumeration
  raises (permission denied, vanished entry); the corresponding
  `try/except` blocks in the source return zero children for it.
* Python strings are Lean `String`s; `str.lower` is modelled ASCII-wise
  (`lowerChar`), and string comparison (`strLt`) is code-point
  lexicographic, as in Python.  `list.sort(key=...)` is a stable ascending
  sort; any two stable sorts agree, so it is modelled by insertion sort
  (`sortBy`).
* The recursive traversals (`walk`, `scanBFS`) and the glob matcher take a
  structural fuel argument.  Every step of `globMatch` consumes at least
  one pattern character, so `pattern.length + 1` fuel is always enough;
  every recursive `walk` call descends into a strict subtree and every
  `scanBFS` iteration pops a queue entry whose enqueued successors are
  strict subtrees, so the node count `nodeSize` bounds both recursions.
* The global mutable configuration of the script (`max_depth`,
  `show_hidden`, `_EXCLUDES = exclude_patterns + _GITIGNORE`, ...) is an
  explicit `Config` record; `Config.gitignore` is the pattern list that
  `_read_gitignore` returns (empty when `use_gitignore` is false or the
  file is absent — reading the file is outside the core).
* `_is_hidden` is modelled by its POSIX branch (name starts with a dot);
  the Windows-attribute branch is platform state outside the model.
-/

/-! ## String primitives (ASCII model of `str.lower`, code-point `<`) -/

/-- ASCII lower-casing of one character (model of `str.lower` per char). -/
def lowerChar (c : Char) : Char :=
  if 65 ≤ c.toNat ∧ c.toNat ≤ 90 then Char.ofNat (c.toNat + 32) else c

/-- Model of Python `str.lower` (ASCII range). -/
def strLower (s : String) : String := ⟨s.data.map lowerChar⟩

/-- Code-point lexicographic `<` on character lists (Python string `<`). -/
def charListLt : List Char → List Char → Bool
  | [], [] => false
  | [], _ :: _ => true
  | _ :: _, [] => false
  | a :: as, b :: bs =>
    if a.toNat < b.toNat then true
    else if b.toNat < a.toNat then false
    else charListLt as bs

/-- Python-style string comparison. -/
def strLt (a b : String) : Bool := charListLt a.data b.data

/-! ## Glob matching: model of `fnmatch.fnmatchcase` / `fnmatch.translate` -/

/-- Scan forward to the closing bracket of a character class; returns the
content before the bracket and the remainder after it (`none` when the
class is unterminated, in which case `translate` treats the opening
bracket as a literal). -/
def findClose : List Char → Option (List Char × List Char)
  | [] => none
  | ']' :: t => some ([], t)
  | c :: t => (findClose t).map (fun pr => (c :: pr.1, pr.2))

/-- Model of the class-extraction scan of `fnmatch.translate`: after an
opening bracket, an optional negation mark and a leading literal closing
bracket are skipped before searching for the terminator. -/
def splitClass (l : List Char) : Option (List Char × List Char) :=
  match l with
  | '!' :: t1 =>
    match t1 with
    | ']' :: t2 => (findClose t2).map (fun pr => ('!' :: ']' :: pr.1, pr.2))
    | _ => (findClose t1).map (fun pr => ('!' :: pr.1, pr.2))
  | ']' :: t2 => (findClose t2).map (fun pr => (']' :: pr.1, pr.2))
  | _ => findClose l

/-- Membership of a character in the body of a character class:
`a-b` ranges by code point, everything else literal. -/
def memberClass : List Char → Char → Bool
  | a :: '-' :: b :: rest, c =>
    (a.toNat ≤ c.toNat && c.toNat ≤ b.toNat) || memberClass rest c
  | a :: rest, c => (a == c) || memberClass rest c
  | [], _ => false

/-- A character class matches a character (leading `!` negates). -/
def matchClass (stuff : List Char) (c : Char) : Bool :=
  match stuff with
  | '!' :: s => !(memberClass s c)
  | s => memberClass s c

/-- Anchored glob matching of a pattern against a string, the semantics of
`fnmatch.fnmatchcase`: `*` matches any run of characters (including
separators), `?` one character, `[...]` a class.  The fuel is structural;
each step consumes at least one pattern character, so callers pass
`pattern.length + 1`. -/
def globMatch : Nat → List Char → List Char → Bool
  | 0, _, _ => false
  | f + 1, p, s =>
    match p with
    | [] => s.isEmpty
    | '*' :: pt => s.tails.any (fun t => globMatch f pt t)
    | '?' :: pt =>
      match s with
      | [] => false
      | _ :: st => globMatch f pt st
    | '[' :: pt =>
      match splitClass pt with
      | none =>
        match s with
        | [] => false
        | c :: st => (c == '[') && globMatch f pt st
      | some (stuff, rest) =>
        match s with
        | [] => false
        | c :: st => matchClass stuff c && globMatch f rest st
    | c :: pt =>
      match s with
      | [] => false
      | d :: st => (c == d) && globMatch f pt st

/-- Model of `fnmatch.fnmatchcase(name, pat)`. -/
def fnmatchcase (name pat : String) : Bool :=
  globMatch (pat.length + 1) pat.data name.data

/-! ## Configuration and overrides -/

/-- One `settings_override` entry: a glob pattern and a depth
(`-1` exclude, `0` unlimited, `n ≥ 1` levels). -/
structure Override where
  pattern : String
  depth : Int

/-- The script's user configuration, after `_read_gitignore` has run:
`gitignore` is the parsed ignore-file pattern list (empty when the feature
is off), and the merged set `_EXCLUDES` is `excludePatterns ++ gitignore`. -/
structure Config where
  maxDepth : Int
  onlyDirs : Bool
  caseSensitiveSort : Bool
  listDirsFirst : Bool
  showHidden : Bool
  excludePatterns : List String
  gitignore : List String
  overrides : List Override
  maxDepthMeasureLimit : Int

/-- `_EXCLUDES = list(exclude_patterns) + _GITIGNORE`. -/
def excludesMerged (cfg : Config) : List String :=
  cfg.excludePatterns ++ cfg.gitignore

/-! ## Filesystem model -/

/-- What a symbolic link points at (`is_dir()` / `is_file()` follow links). -/
inductive LinkTarget where
  | toDir
  | toFile
  | broken

/-- A finite filesystem tree.  `readable = false` on a directory models an
enumeration failure (the `except` branches of `_iter_entries` and
`_scan_stats`). -/
inductive FSNode where
  | dir (name : String) (readable : Bool) (children : List FSNode)
  | file (name : String)
  | link (name : String) (target : LinkTarget)

def FSNode.name : FSNode → String
  | .dir n _ _ => n
  | .file n => n
  | .link n _ => n

/-- `p.is_symlink()`. -/
def isSymlink : FSNode → Bool
  | .link _ _ => true
  | _ => false

/-- `p.is_dir()` (follows symlinks). -/
def isDirFollow : FSNode → Bool
  | .dir _ _ _ => true
  | .link _ .toDir => true
  | _ => false

/-- `p.is_file()` (follows symlinks). -/
def isFileFollow : FSNode → Bool
  | .file _ => true
  | .link _ .toFile => true
  | _ => false

/-- `p.is_dir() and not p.is_symlink()`. -/
def isRealDir (p : FSNode) : Bool := isDirFollow p && !(isSymlink p)

/-- `_is_hidden` (POSIX branch): the name starts with a dot. -/
def isHidden (p : FSNode) : Bool :=
  match p.name.data with
  | '.' :: _ => true
  | _ => false

/-- The children an `iterdir()` call yields: empty when enumeration fails
or the node is not a directory. -/
def readableChildren : FSNode → List FSNode
  | .dir _ true ch => ch
  | _ => []

/-- Children for path lookup (`exists()` does not enumerate the parent). -/
def rawChildren : FSNode → List FSNode
  | .dir _ _ ch => ch
  | _ => []

mutual

/-- Number of nodes of a tree: the structural fuel bound used by the
recursive traversals below. -/
def nodeSize : FSNode → Nat
  | .dir _ _ ch => 1 + nodeSizeList ch
  | .file _ => 1
  | .link _ _ => 1

/-- Total node count of a forest. -/
def nodeSizeList : List FSNode → Nat
  | [] => 0
  | x :: xs => nodeSize x + nodeSizeList xs

end

/-- Root-relative posix path of a child (`_to_posix_rel`): the root itself
has relative path `""`. -/
def relOf (parentRel name : String) : String :=
  if parentRel == "" then name else parentRel ++ "/" ++ name

/-! ## Pattern application and the visibility resolver -/

/-- `_matches_any(name, rel, patterns, is_dir)`: case-folds according to
`case_sensitive_sort` and tries the basename, the relative path, and (for
directories) the relative path with a trailing slash. -/
def matchesAny (cfg : Config) (name rel : String) (patterns : List String)
    (isDir : Bool) : Bool :=
  let n := if cfg.caseSensitiveSort then name else strLower name
  let r := if cfg.caseSensitiveSort then rel else strLower rel
  patterns.any (fun pat =>
    let p := if cfg.caseSensitiveSort then pat else strLower pat
    fnmatchcase n p || fnmatchcase r p || (isDir && fnmatchcase (r ++ "/") p))

/-- `_override_for`: depth of the first matching override, if any. -/
def overrideFor (cfg : Config) (name rel : String) (isDir : Bool) : Option Int :=
  (cfg.overrides.find? (fun ov => matchesAny cfg name rel [ov.pattern] isDir)).map
    Override.depth

/-- `_is_visible(path, rel)`: hidden policy first; then the merged
exclusion set (skipped entirely for hidden-and-shown entries) with
override resurrection for depths `≥ 0`; then the absolute `-1` override. -/
def isVisible (cfg : Config) (e : FSNode) (rel : String) : Bool :=
  let hidden := isHidden e
  if hidden && !cfg.showHidden then false
  else if !(hidden && cfg.showHidden)
      && matchesAny cfg e.name rel (excludesMerged cfg) (isDirFollow e) then
    match overrideFor cfg e.name rel (isDirFollow e) with
    | some d => decide (0 ≤ d)
    | none => false
  else if overrideFor cfg e.name rel (isDirFollow e) == some (-1) then false
  else true

/-! ## Sorting and child iteration -/

/-- Stable insertion into a sorted list (ties keep the inserted element,
which came earlier in the original order, in front). -/
def insertLe {α : Type} (le : α → α → Bool) (a : α) : List α → List α
  | [] => [a]
  | b :: l => if le a b then a :: b :: l else b :: insertLe le a l

/-- Stable ascending sort, the model of Python `list.sort(key=...)`. -/
def sortBy {α : Type} (le : α → α → Bool) : List α → List α
  | [] => []
  | x :: xs => insertLe le x (sortBy le xs)

/-- `_sort_key`: the name, lower-cased unless sorting case-sensitively. -/
def sortKey (cfg : Config) (name : String) : String :=
  if cfg.caseSensitiveSort then name else strLower name

/-- Ascending comparison of entries by sort key. -/
def nameLe (cfg : Config) (a b : FSNode) : Bool :=
  !(strLt (sortKey cfg b.name) (sortKey cfg a.name))

/-- `_iter_entries`: children of a directory, real directories first when
`list_dirs_first`, each group sorted; empty on enumeration failure. -/
def iterEntries (cfg : Config) (d : FSNode) : List FSNode :=
  match d with
  | .dir _ true ch =>
    if cfg.listDirsFirst then
      sortBy (nameLe cfg) (ch.filter isRealDir)
        ++ sortBy (nameLe cfg) (ch.filter (fun p => !(isRealDir p)))
    else sortBy (nameLe cfg) ch
  | _ => []

/-! ## Depth budgets -/

/-- `_remaining_from_override`. -/
def remainingFromOverride (ovDepth : Int) : Option Int :=
  if ovDepth < 0 then some 0
  else if ovDepth == 0 then none
  else some ovDepth

/-- `_effective_global_remaining`. -/
def effectiveGlobalRemaining (cfg : Config) (depthFromRoot : Nat) : Option Int :=
  if cfg.maxDepth == 0 then none
  else if cfg.maxDepth < 0 then none
  else some (cfg.maxDepth - (depthFromRoot : Int))

/-- `_depth_limit_value_for_reports`. -/
def depthLimitValueForReports (cfg : Config) : Option Int :=
  if cfg.maxDepthMeasureLimit < 0 then some 25
  else if cfg.maxDepthMeasureLimit == 0 then none
  else some cfg.maxDepthMeasureLimit

/-! ## The tree walk (`_walk_tree`) -/

/-- Accumulated traversal output: display lines, staged depth-cutoff
candidates `(relpath ++ "/", cutoff_abs_depth)` and staged rule-excluded
candidates `(relpath ++ "/", reason)`. -/
structure WalkOut where
  lines : List String
  cutoffs : List (String × Nat)
  excluded : List (String × String)
deriving DecidableEq

/-- `p.name + "/"` for a real directory, the bare name otherwise (the
display name the walk renders). -/
def displayName (p : FSNode) : String :=
  if isRealDir p then p.name ++ "/" else p.name

/-- The reason computation of the rule-excluded staging block in `walk`
(lines 432-442 of the source): an `if/elif/elif` chain assigning hidden,
gitignore-list and exclusion-list reasons, after which a `-1` override
unconditionally overwrites the reason. -/
def reasonFor (cfg : Config) (e : FSNode) (rel : String) : Option String :=
  let base :=
    if isHidden e && !cfg.showHidden then some "Hide hidden"
    else if !(isHidden e && cfg.showHidden)
        && matchesAny cfg e.name rel cfg.gitignore true then some "gitignore list"
    else if matchesAny cfg e.name rel cfg.excludePatterns true then some "Exclusion list"
    else none
  if overrideFor cfg e.name rel true == some (-1) then some "Override (-1)" else base

/-- The rule-excluded candidates one directory stages for its real
directory children. -/
def stagedExcluded (cfg : Config) (curr : FSNode) (currRel : String) :
    List (String × String) :=
  (iterEntries cfg curr).filterMap (fun e =>
    if isRealDir e then
      (reasonFor cfg e (relOf currRel e.name)).map
        (fun why => (relOf currRel e.name ++ "/", why))
    else none)

/-- The visible subset of a directory's entries: `_is_visible` plus the
`only_dirs` filter. -/
def visibleChildren (cfg : Config) (curr : FSNode) (currRel : String) :
    List FSNode :=
  (iterEntries cfg curr).filter (fun e =>
    isVisible cfg e (relOf currRel e.name) && !(cfg.onlyDirs && !(isDirFollow e)))

/-- The per-child body of the walk loop (source lines 456-497): renders the
line, then decides descent.  `recur` is the recursive walk applied to this
child; the source passes the decremented budgets
(`None, rem_ov - 1` / `eff_global - 1, None`) into the recursion exactly as
reproduced here. -/
def walkChild (cfg : Config) (p : FSNode) (isLast : Bool) (currRel pre : String)
    (depth : Nat)
    (recur : String → String → Nat → Option Int → Option Int → WalkOut) : WalkOut :=
  let connector := if isLast then "└── " else "├── "
  let childPre := pre ++ (if isLast then "    " else "│   ")
  let rel := relOf currRel p.name
  let line := pre ++ connector ++ displayName p
  if !(isRealDir p) then ⟨[line], [], []⟩
  else
    let ovd := overrideFor cfg p.name rel true
    if ovd == some (-1) then ⟨[line], [], []⟩
    else
      let remOv := ovd.bind remainingFromOverride
      let effGlobal := effectiveGlobalRemaining cfg (depth + 1)
      match remOv with
      | some r =>
        if r ≤ 0 then ⟨[line], [], []⟩
        else
          let sub := recur rel childPre (depth + 1) none (some (r - 1))
          ⟨line :: sub.lines, sub.cutoffs, sub.excluded⟩
      | none =>
        match effGlobal with
        | none =>
          let sub := recur rel childPre (depth + 1) none none
          ⟨line :: sub.lines, sub.cutoffs, sub.excluded⟩
        | some g =>
          if g ≤ 0 then ⟨[line], [(rel ++ "/", depth + 1)], []⟩
          else
            let sub := recur rel childPre (depth + 1) (some (g - 1)) none
            ⟨line :: sub.lines, sub.cutoffs, sub.excluded⟩

/-- The inner recursive `walk(curr, prefix, depth_from_root, rem_global,
rem_override)` of `_walk_tree`.  The two trailing `Option Int` parameters
mirror the source's `rem_global` and `rem_override` arguments, which the
source binds but never reads.  The fuel is structural; `walkTree` passes
`nodeSize root`, which bounds the recursion depth. -/
def walk : Nat → Config → FSNode → String → String → Nat → Option Int → Option Int → WalkOut
  | 0, _, _, _, _, _, _, _ => ⟨[], [], []⟩
  | fuel + 1, cfg, curr, currRel, pre, depth, _remGlobal, _remOverride =>
    let vis := visibleChildren cfg curr currRel
    let subs := vis.enum.map (fun ip =>
      walkChild cfg ip.2 (ip.1 == vis.length - 1) currRel pre depth
        (fun r2 p2 d2 o1 o2 => walk fuel cfg ip.2 r2 p2 d2 o1 o2))
    ⟨(subs.map WalkOut.lines).flatten,
     (subs.map WalkOut.cutoffs).flatten,
     stagedExcluded cfg curr currRel ++ (subs.map WalkOut.excluded).flatten⟩

/-- `_walk_tree(root, reports)`: the root line followed by the walk from
the root with the seeded global budget. -/
def walkTree (cfg : Config) (root : FSNode) :
    List String × List (String × Nat) × List (String × String) :=
  let out := walk (nodeSize root) cfg root "" "" 0 (effectiveGlobalRemaining cfg 0) none
  ((root.name ++ "/") :: out.lines, out.cutoffs, out.excluded)

/-! ## The skipped-subtree scanner (`_scan_stats`) -/

/-- Processing of one enumerated child inside the scanner loop: invisible
children are skipped entirely; a visible real directory is counted,
deepens the maximum and is enqueued; a visible file is counted.  The
accumulator is `(max_rel_depth, folders, files, queue-additions)`. -/
def scanChild (cfg : Config) (parentRel : String) (d : Nat)
    (acc : Nat × Nat × Nat × List (FSNode × String × Nat)) (e : FSNode) :
    Nat × Nat × Nat × List (FSNode × String × Nat) :=
  let rel := relOf parentRel e.name
  if !(isVisible cfg e rel) then acc
  else if isRealDir e then
    (max acc.1 (d + 1), acc.2.1 + 1, acc.2.2.1, acc.2.2.2 ++ [(e, rel, d + 1)])
  else if isFileFollow e then (acc.1, acc.2.1, acc.2.2.1 + 1, acc.2.2.2)
  else acc

/-- The BFS loop of `_scan_stats` over a deque of `(node, rel, depth)`
items.  Fuel is structural; each iteration pops one item, and every item
ever enqueued is a distinct node of the subtree, so `nodeSize start`
suffices. -/
def scanBFS : Nat → Config → List (FSNode × String × Nat) → Option Int → Nat → Nat → Nat → Nat × Nat × Nat
  | 0, _, _, _, maxRel, folders, files => (maxRel, folders, files)
  | _ + 1, _, [], _, maxRel, folders, files => (maxRel, folders, files)
  | fuel + 1, cfg, (node, rel, d) :: rest, extraLimit, maxRel, folders, files =>
    if (match extraLimit with | some k => decide ((d : Int) > k) | none => false) then
      scanBFS fuel cfg rest extraLimit maxRel folders files
    else
      let st := (readableChildren node).foldl (scanChild cfg rel d) (maxRel, folders, files, [])
      scanBFS fuel cfg (rest ++ st.2.2.2) extraLimit st.1 st.2.1 st.2.2.1

/-- `_scan_stats(start, extra_limit)`: `(max_relative_depth, folders,
files)` under `start`, which is itself at depth 0 and not counted. -/
def scanStats (cfg : Config) (start : FSNode) (startRel : String)
    (extraLimit : Option Int) : Nat × Nat × Nat :=
  scanBFS (nodeSize start) cfg [(start, startRel, 0)] extraLimit 0 0 0

/-! ## Path lookup and report computation (`_compute_reports`) -/

/-- Navigate a relative path segment list from a node (the model of
`root / PurePosixPath(rel)` followed by `exists()`). -/
def findNode : FSNode → List String → Option FSNode
  | n, [] => some n
  | .dir _ _ ch, seg :: rest =>
    match ch.find? (fun c => c.name == seg) with
    | some c => findNode c rest
    | none => none
  | _, _ :: _ => none

/-- Strip slashes from both ends (`str.strip("/")`). -/
def stripSlash (s : String) : String :=
  ⟨((s.data.dropWhile (fun c => c == '/')).reverse.dropWhile
      (fun c => c == '/')).reverse⟩

/-- Strip trailing slashes (`str.rstrip("/")`). -/
def rstripSlash (s : String) : String :=
  ⟨(s.data.reverse.dropWhile (fun c => c == '/')).reverse⟩

/-- Model of `str.split("/")` at the character level. -/
def splitSlash : List Char → List (List Char)
  | [] => [[]]
  | c :: rest =>
    if c == '/' then [] :: splitSlash rest
    else
      match splitSlash rest with
      | [] => [[c]]
      | s :: ss => (c :: s) :: ss

/-- Join segments with slashes (`"/".join`). -/
def joinSlash : List (List Char) → List Char
  | [] => []
  | [s] => s
  | s :: ss => s ++ '/' :: joinSlash ss

/-- Path components of a stored relative path, as `PurePosixPath` parses
them (empty components collapse). -/
def relSegs (rel : String) : List String :=
  ((splitSlash (stripSlash rel).data).filter (fun s => !s.isEmpty)).map
    (fun s => (⟨s⟩ : String))

/-- One iteration of the depth-pruned loop in `_compute_reports`: when the
staged path still exists and is a directory, re-scan it and record
`(total_depth_abs, skipped_levels, folders, files)` — but only when at
least one level was actually skipped. -/
def depthPrunedStep (cfg : Config) (root : FSNode)
    (acc : List (String × (Nat × Nat × Nat × Nat))) (rc : String × Nat) :
    List (String × (Nat × Nat × Nat × Nat)) :=
  match findNode root (relSegs rc.1) with
  | some p =>
    if isDirFollow p then
      let st := scanStats cfg p (stripSlash rc.1) (depthLimitValueForReports cfg)
      let totalDepthAbs := rc.2 + st.1
      let skippedLevels := totalDepthAbs - rc.2
      if 0 < skippedLevels then
        acc ++ [(rc.1, (totalDepthAbs, skippedLevels, st.2.1, st.2.2))]
      else acc
    else acc
  | none => acc

/-- The depth-pruned report computation of `_compute_reports`. -/
def computeDepthPruned (cfg : Config) (root : FSNode)
    (cutoffs : List (String × Nat)) : List (String × (Nat × Nat × Nat × Nat)) :=
  cutoffs.foldl (depthPrunedStep cfg root) []

/-- The rule-excluded report list: the staged candidates sorted by
lower-cased path (`dict(sorted(..., key=kv[0].lower()))`; the staged keys
are distinct, one per directory). -/
def computeRuleExcluded (cands : List (String × String)) : List (String × String) :=
  sortBy (fun a b => !(strLt (strLower b.1) (strLower a.1))) cands

/-! ## Rendering (`_compress_path`, `_fmt_int`, the two report tables) -/

/-- `_compress_path`: `first 3 segments / ...(omitted).../ last 2 /` for
paths of more than five segments; shorter paths pass through with a
trailing slash; the empty path becomes `./`. -/
def compressPath (relWithSlash : String) : String :=
  let rel := (relWithSlash.data.reverse.dropWhile (fun c => c == '/')).reverse
  if rel.isEmpty then "./"
  else
    let parts := splitSlash rel
    if parts.length ≤ 5 then ⟨rel ++ ['/']⟩
    else
      let omitted := parts.length - 5
      ⟨joinSlash (parts.take 3) ++ "/...(".data ++ (toString omitted).data
        ++ ").../".data ++ joinSlash (parts.drop (parts.length - 2)) ++ ['/']⟩

/-- Insert thousands separators into a reversed digit list. -/
def thousandsRev : List Char → List Char
  | a :: b :: c :: d :: rest => a :: b :: c :: ',' :: thousandsRev (d :: rest)
  | l => l

/-- `_fmt_int`: decimal with thousands separators. -/
def fmtInt (n : Nat) : String :=
  ⟨(thousandsRev (toString n).data.reverse).reverse⟩

/-- A run of spaces. -/
def spaces (n : Nat) : String := ⟨List.replicate n ' '⟩

/-- `str.ljust`. -/
def ljust (s : String) (w : Nat) : String := s ++ spaces (w - s.length)

/-- `_rule(width)`: a horizontal rule. -/
def ruleLine (w : Nat) : String := ⟨List.replicate w '-'⟩

/-- `_TWO_TABS`: sixteen spaces between table columns. -/
def TWO_TABS : String := spaces 16

/-- `_left_width`. -/
def leftWidth (rowsLeft : List String) (headerLeft : String) : Nat :=
  min (((rowsLeft.map String.length) ++ [headerLeft.length, 35]).foldl max 0) 70

/-- `_render_depth_pruned`: fixed-width table with up to four rows and a
totals footer summed over all records. -/
def renderDepthPruned (cfg : Config)
    (dp : List (String × (Nat × Nat × Nat × Nat))) : List String :=
  if cfg.maxDepth == 0 then []
  else
    let title := "Depth-Pruned Directories (max_depth=" ++ toString cfg.maxDepth ++ ")"
    let leftHeader := "Folders @ Level " ++ toString cfg.maxDepth ++ ":"
    let rightHeader := "Full Directory Depth:"
    if dp.isEmpty then
      let msg := "No depth-pruned directories (max_depth=" ++ toString cfg.maxDepth ++ ")"
      let width := max 39 msg.length
      [ruleLine width, msg, ruleLine width, ""]
    else
      let compressQ := decide (6 ≤ cfg.maxDepth)
      let items := sortBy (fun a b => !(strLt (strLower b.1) (strLower a.1))) dp
      let top := items.take 4
      let skippedFoldersTotal := (items.map (fun x => x.2.2.2.1)).sum
      let skippedFilesTotal := (items.map (fun x => x.2.2.2.2)).sum
      let rows := top.map (fun x =>
        let dispPath := if compressQ then compressPath x.1 else x.1
        (dispPath,
          toString x.2.1 ++ " ("
            ++ (if x.2.2.1 == 1 then "1 level" else toString x.2.2.1 ++ " levels")
            ++ " skipped)"))
      let leftW := leftWidth (rows.map Prod.fst ++ [leftHeader]) leftHeader
      let headerLine := ljust leftHeader (leftW + 2) ++ TWO_TABS ++ rightHeader
      let width := max (max title.length headerLine.length) 64
      [ruleLine width, title, ruleLine width, headerLine, ruleLine width]
        ++ rows.map (fun lr => "- " ++ lr.1 ++ spaces (leftW - lr.1.length) ++ TWO_TABS ++ lr.2)
        ++ [ruleLine width,
            "- Skipped Total: " ++ fmtInt skippedFoldersTotal ++ " Folders | "
              ++ fmtInt skippedFilesTotal ++ " Files",
            ruleLine width, ""]

/-- The folder/file counts the rule-excluded totals loop contributes for
one record: a fresh scan when the path exists and is a directory, nothing
otherwise. -/
def scanCountsAt (cfg : Config) (root : FSNode) (rel : String)
    (lim : Option Int) : Nat × Nat :=
  match findNode root (relSegs rel) with
  | some p =>
    if isDirFollow p then
      let st := scanStats cfg p (stripSlash rel) lim
      (st.2.1, st.2.2)
    else (0, 0)
  | none => (0, 0)

/-- `_render_rule_excluded`: fixed-width table with up to four rows and a
totals footer obtained by re-scanning every record. -/
def renderRuleExcluded (cfg : Config) (root : FSNode)
    (re : List (String × String)) : List String :=
  let title := "Rule-Excluded Folders"
  let leftHeader := "Excluded Folders:"
  let rightHeader := "Rule Applied:"
  if re.isEmpty then
    let msg := "No rule-excluded folders (hidden, gitignore or exclusion list)"
    let width := max 64 msg.length
    [ruleLine width, msg, ruleLine width, ""]
  else
    let items := re
    let extraLimit := depthLimitValueForReports cfg
    let rows := (items.take 4).map (fun x =>
      let relNoSlash := rstripSlash x.1
      let dispPath :=
        if 6 ≤ (splitSlash relNoSlash.data).length then compressPath x.1 else x.1
      (dispPath, x.2))
    let skippedFoldersTotal :=
      (items.map (fun x => (scanCountsAt cfg root x.1 extraLimit).1)).sum
    let skippedFilesTotal :=
      (items.map (fun x => (scanCountsAt cfg root x.1 extraLimit).2)).sum
    let leftW := leftWidth (rows.map Prod.fst ++ [leftHeader]) leftHeader
    let headerLine := ljust leftHeader (leftW + 2) ++ TWO_TABS ++ rightHeader
    let width := max (max title.length headerLine.length) 70
    [ruleLine width, title, ruleLine width, headerLine, ruleLine width]
      ++ rows.map (fun lr => "- " ++ lr.1 ++ spaces (leftW - lr.1.length) ++ TWO_TABS ++ lr.2)
      ++ [ruleLine width,
          "- Skipped Total: " ++ fmtInt skippedFoldersTotal ++ " Folders | "
            ++ fmtInt skippedFilesTotal ++ " Files",
          ruleLine width, ""]

/-! ## Concrete fixtures used by the claim theorems -/

/-- A configuration with the script's default switches and no patterns. -/
def cfgBase : Config :=
  { maxDepth := 0, onlyDirs := false, caseSensitiveSort := false,
    listDirsFirst := true, showHidden := false, excludePatterns := [],
    gitignore := [], overrides := [], maxDepthMeasureLimit := 25 }

/-- A chain `root/docs/a/b` of readable directories. -/
def fsC1 : FSNode :=
  .dir "root" true [.dir "docs" true [.dir "a" true [.dir "b" true []]]]

/-- Global depth 2 with override `("docs", 0)` (unlimited per the docs). -/
def cfgC1a : Config := { cfgBase with maxDepth := 2, overrides := [⟨"docs", 0⟩] }

/-- Global depth 2 with override `("docs", 3)` (three levels per the docs). -/
def cfgC1b : Config := { cfgBase with maxDepth := 2, overrides := [⟨"docs", 3⟩] }

/-- Hidden-entries shown, and an explicit exclusion naming a hidden dir. -/
def cfgC2 : Config :=
  { cfgBase with showHidden := true, excludePatterns := [".cache"] }

/-- Hidden entries not shown, with a `-1` override on the hidden dir. -/
def cfgC3 : Config := { cfgBase with overrides := [⟨".x", -1⟩] }

/-- A root containing one hidden directory `.x`. -/
def fsC3 : FSNode := .dir "root" true [.dir ".x" true []]

/-- A hidden directory excluded by pattern but overridden with depth 2. -/
def cfgC5 : Config :=
  { cfgBase with excludePatterns := [".secret"], overrides := [⟨".secret", 2⟩] }

/-- The reason-precedence rule the code actually implements (the amended
form of the claim): an override of depth `-1` takes precedence over every
other reason because its assignment overwrites them; among the remaining
reasons the first applicable of HiddenPolicy, IgnoreList (which is guarded
by the hidden-and-shown exemption) and ExclusionList is chosen. -/
def reasonPrecedenceAmended (cfg : Config) (e : FSNode) (rel : String) :
    Option String :=
  if overrideFor cfg e.name rel true == some (-1) then some "Override (-1)"
  else if isHidden e && !cfg.showHidden then some "Hide hidden"
  else if !(isHidden e && cfg.showHidden)
      && matchesAny cfg e.name rel cfg.gitignore true then some "gitignore list"
  else if matchesAny cfg e.name rel cfg.excludePatterns true then some "Exclusion list"
  else none

/-- Fixture: a root containing a directory `x` carrying a `-1` override. -/
def cfgC6 : Config := { cfgBase with overrides := [⟨"x", -1⟩] }

/-- Fixture: the overridden directory. -/
def nodeC6 : FSNode := .dir "x" true []

/-- Fixture: its parent. -/
def rootC6 : FSNode := .dir "root" true [nodeC6]

/-- Fixture: a non-hidden directory excluded by pattern and resurrected by
an override of depth 0. -/
def cfgC5w : Config :=
  { cfgBase with excludePatterns := ["secret"], overrides := [⟨"secret", 0⟩] }

/-- Fixture: the resurrected directory. -/
def pC5 : FSNode := .dir "secret" true []

/-- Fixture: its parent. -/
def rootC5 : FSNode := .dir "root" true [pC5]

/-- Fixture: a symlink to a directory. -/
def pL : FSNode := .link "ln" .toDir

/-- Fixture: a sibling real directory. -/
def dL : FSNode := .dir "d" true []

/-- Fixture: three excluded directories holding `(folders, files)` counts
`(2, 1)`, `(0, 5)` and `(1, 0)`. -/
def fsC8 : FSNode :=
  .dir "root" true
    [.dir "e1" true [.dir "a" true [], .dir "b" true [], .file "f"],
     .dir "e2" true [.file "f1", .file "f2", .file "f3", .file "f4", .file "f5"],
     .dir "e3" true [.dir "c" true []]]

/-- Fixture: the configuration excluding the three directories. -/
def cfgC8 : Config :=
  { cfgBase with maxDepth := 3, excludePatterns := ["e1", "e2", "e3"] }

/-- Fixture: the rule-excluded records for the three directories. -/
def reC8 : List (String × String) :=
  [("e1/", "Exclusion list"), ("e2/", "Exclusion list"), ("e3/", "Exclusion list")]

/-- Adjacent duplicated slashes detector (used to state that compressed
paths never contain a doubled separator). -/
def hasAdjSlash : List Char → Bool
  | a :: b :: t => (a == '/' && b == '/') || hasAdjSlash (b :: t)
  | _ => false

/-- Fixture: seven single-letter segments. -/
def segsC7 : List (List Char) :=
  [['a'], ['b'], ['c'], ['d'], ['e'], ['f'], ['g']]

/-- C1: the claim says an override of depth `n ≥ 1` descends exactly `n`
levels beneath the match with the global budget suspended, and depth `0`
grants unlimited descent despite a global limit.  The code does neither:
`walk` binds but never reads its budget parameters, so with
`max_depth = 2` and override `("docs", 0)` (or `("docs", 3)`) on
`root/docs/a/b`, the walk still stops at `a` under the global limit and
stages a depth cutoff for it; `b` is never rendered. -/
theorem C1_override_budget_not_threaded :
    walkTree cfgC1a fsC1
      = (["root/", "└── docs/", "    └── a/"], [("docs/a/", 2)], [])
    ∧ walkTree cfgC1b fsC1
      = (["root/", "└── docs/", "    └── a/"], [("docs/a/", 2)], []) := by
  constructor <;> decide

/-- C2: with hidden entries shown, a hidden entry matching only the
explicit exclusion list (`.cache` with `exclude_patterns = [".cache"]`) is
nevertheless visible, because `_is_visible` skips the whole merged
exclusion set for hidden-and-shown entries — the claim (and the script's
own configuration comment) says explicit exclusions still apply. -/
theorem C2_hidden_exempts_whole_merged_set :
    isVisible cfgC2 (.dir ".cache" true []) ".cache" = true
    ∧ matchesAny cfgC2 ".cache" ".cache" (excludesMerged cfgC2) true = true
    ∧ matchesAny cfgC2 ".cache" ".cache" cfgC2.gitignore true = false := by
  refine ⟨by decide, by decide, by decide⟩

/-- C3 counterexample: a hidden, not-shown directory `.x` that also
carries a `-1` override is recorded with reason `Override (-1)`, not
`HiddenPolicy` — the override assignment overwrites the earlier reason,
the opposite of the claimed precedence. -/
theorem C3_counterexample_override_wins :
    (walkTree cfgC3 fsC3).2.2 = [(".x/", "Override (-1)")]
    ∧ (walkTree cfgC3 fsC3).2.2 ≠ [(".x/", "Hide hidden")] := by
  refine ⟨by decide, by decide⟩

/-- C5 counterexample: the hidden directory `.secret` matches the merged
exclusion set and its first matching override has depth `2 ≥ 0`, yet it is
not visible — the hidden-entry rule fires before override resurrection, so
the claim fails as universally stated. -/
theorem C5_counterexample_hidden_not_resurrected :
    matchesAny cfgC5 ".secret" ".secret" (excludesMerged cfgC5) true = true
    ∧ overrideFor cfgC5 ".secret" ".secret" true = some 2
    ∧ isVisible cfgC5 (.dir ".secret" true []) ".secret" = false := by
  refine ⟨by decide, by decide, by decide⟩

/-! ## Sorting lemmas -/

theorem mem_insertLe {α : Type} {le : α → α → Bool} {a x : α} :
    ∀ {l : List α}, x ∈ insertLe le a l ↔ x = a ∨ x ∈ l := by
  intro l
  induction l with
  | nil => simp [insertLe]
  | cons b t ih =>
    by_cases h : le a b = true
    · simp [insertLe, h]
    · simp [insertLe, h, ih]
      tauto

theorem insertLe_perm {α : Type} (le : α → α → Bool) (a : α) :
    ∀ (l : List α), (insertLe le a l).Perm (a :: l) := by
  intro l
  induction l with
  | nil => simp [insertLe]
  | cons b t ih =>
    by_cases h : le a b = true
    · simp [insertLe, h]
    · simp only [Bool.not_eq_true] at h
      simp only [insertLe, h, if_neg Bool.false_ne_true]
      exact (ih.cons b).trans (List.Perm.swap a b t)

theorem sortBy_perm {α : Type} (le : α → α → Bool) :
    ∀ (l : List α), (sortBy le l).Perm l := by
  intro l
  induction l with
  | nil => simp [sortBy]
  | cons x xs ih => exact (insertLe_perm le x (sortBy le xs)).trans (ih.cons x)

theorem mem_sortBy {α : Type} {le : α → α → Bool} {x : α} {l : List α} :
    x ∈ sortBy le l ↔ x ∈ l := (sortBy_perm le l).mem_iff

/-- C3 (amended): the recorded exclusion reason follows the precedence
`Override (-1)` first, then HiddenPolicy > IgnoreList > ExclusionList. -/
theorem C3_reason_precedence_amended (cfg : Config) (e : FSNode) (rel : String) :
    reasonFor cfg e rel = reasonPrecedenceAmended cfg e rel := by
  unfold reasonFor reasonPrecedenceAmended
  cases h : (overrideFor cfg e.name rel true == some (-1)) <;> simp [h]

/-- C6: an entry whose first matching override has depth `-1` is never
visible and never enters the visible child list the walk renders,
whatever the hidden/exclusion configuration. -/
theorem C6_override_minus_one_never_visible (cfg : Config) (curr : FSNode)
    (currRel : String) (p : FSNode)
    (h : overrideFor cfg p.name (relOf currRel p.name) (isDirFollow p) = some (-1)) :
    isVisible cfg p (relOf currRel p.name) = false
    ∧ p ∉ visibleChildren cfg curr currRel := by
  have hv : isVisible cfg p (relOf currRel p.name) = false := by
    unfold isVisible
    rw [h]
    simp
  refine ⟨hv, ?_⟩
  intro hm
  have hvt : isVisible cfg p (relOf currRel p.name) = true := by
    have hmm := hm
    simp only [visibleChildren, List.mem_filter, Bool.and_eq_true] at hmm
    exact hmm.2.1
  rw [hv] at hvt
  exact Bool.false_ne_true hvt

/-- Witness for C6 at a concrete input. -/
theorem C6_witness :
    isVisible cfgC6 nodeC6 (relOf "" nodeC6.name) = false
    ∧ nodeC6 ∉ visibleChildren cfgC6 rootC6 "" :=
  C6_override_minus_one_never_visible cfgC6 rootC6 "" nodeC6 (by decide)

/-- Every branch of the per-child walk body emits the child's own display
line first. -/
theorem walkChild_lines_head (cfg : Config) (p : FSNode) (isLast : Bool)
    (currRel pre : String) (depth : Nat)
    (recur : String → String → Nat → Option Int → Option Int → WalkOut) :
    ∃ rest, (walkChild cfg p isLast currRel pre depth recur).lines
      = (pre ++ (if isLast then "└── " else "├── ") ++ displayName p) :: rest := by
  cases isLast <;>
    (unfold walkChild
     dsimp only
     repeat' split
     all_goals exact ⟨_, rfl⟩)

/-- A list member occurs in the enumeration with some index. -/
theorem mem_enum_of_mem {α : Type} {x : α} {l : List α} (h : x ∈ l) :
    ∃ i, (i, x) ∈ l.enum := by
  obtain ⟨i, hi, he⟩ := List.mem_iff_getElem.mp h
  refine ⟨i, ?_⟩
  have hlen : i < l.enum.length := by simpa using hi
  have h1 : l.enum[i] = (i, l[i]) := List.getElem_enum l i hlen
  have h2 : l.enum[i] ∈ l.enum := List.getElem_mem hlen
  rw [h1] at h2
  rw [he] at h2
  exact h2

/-- C5 (amended): for an entry that survives the hidden-policy rule, a
match against the merged exclusion set together with a first matching
override of depth `≥ 0` resurrects visibility; such an entry enters the
visible child list (unless removed by `only_dirs`) and the walk renders a
connector line for it. -/
theorem C5_override_resurrects_amended (cfg : Config) (curr : FSNode)
    (currRel pre : String) (depth fuel : Nat) (g o : Option Int)
    (p : FSNode) (d : Int)
    (hhid : (isHidden p && !cfg.showHidden) = false)
    (hmatch : matchesAny cfg p.name (relOf currRel p.name) (excludesMerged cfg)
      (isDirFollow p) = true)
    (hov : overrideFor cfg p.name (relOf currRel p.name) (isDirFollow p) = some d)
    (hd : 0 ≤ d) :
    isVisible cfg p (relOf currRel p.name) = true
    ∧ (p ∈ iterEntries cfg curr → (cfg.onlyDirs && !(isDirFollow p)) = false →
        p ∈ visibleChildren cfg curr currRel)
    ∧ (p ∈ visibleChildren cfg curr currRel →
        ∃ s, s ∈ (walk (fuel + 1) cfg curr currRel pre depth g o).lines
          ∧ (s = pre ++ "├── " ++ displayName p
              ∨ s = pre ++ "└── " ++ displayName p)) := by
  have hne : d ≠ -1 := by omega
  have hv : isVisible cfg p (relOf currRel p.name) = true := by
    simp only [isVisible]
    rw [hov, hhid]
    by_cases hs : (isHidden p && cfg.showHidden) = true
    · simp [hs, hne]
    · simp only [Bool.not_eq_true] at hs
      simp [hs, hmatch, hd]
  refine ⟨hv, ?_, ?_⟩
  · intro h1 h2
    refine List.mem_filter.mpr ⟨h1, ?_⟩
    rw [hv, h2]
    rfl
  · intro hp
    obtain ⟨i, hi⟩ := mem_enum_of_mem hp
    obtain ⟨rest, hrest⟩ := walkChild_lines_head cfg p
      (i == (visibleChildren cfg curr currRel).length - 1) currRel pre depth
      (fun r2 p2 d2 o1 o2 => walk fuel cfg p r2 p2 d2 o1 o2)
    refine ⟨pre ++ (if (i == (visibleChildren cfg curr currRel).length - 1 : Bool)
        then "└── " else "├── ") ++ displayName p, ?_, ?_⟩
    · show _ ∈ (walk (fuel + 1) cfg curr currRel pre depth g o).lines
      simp only [walk]
      apply List.mem_flatten.mpr
      refine ⟨(walkChild cfg p (i == (visibleChildren cfg curr currRel).length - 1)
          currRel pre depth
          (fun r2 p2 d2 o1 o2 => walk fuel cfg p r2 p2 d2 o1 o2)).lines, ?_, ?_⟩
      · exact List.mem_map_of_mem _ (List.mem_map_of_mem _ hi)
      · rw [hrest]
        exact List.mem_cons_self _ _
    · cases hlast : (i == (visibleChildren cfg curr currRel).length - 1) with
      | true => right; simp
      | false => left; simp

/-- Witness for C5 (amended) at a concrete input. -/
theorem C5_witness :
    isVisible cfgC5w pC5 (relOf "" pC5.name) = true
    ∧ (pC5 ∈ iterEntries cfgC5w rootC5 →
        (cfgC5w.onlyDirs && !(isDirFollow pC5)) = false →
        pC5 ∈ visibleChildren cfgC5w rootC5 "")
    ∧ (pC5 ∈ visibleChildren cfgC5w rootC5 "" →
        ∃ s, s ∈ (walk (0 + 1) cfgC5w rootC5 "" "" 0 none none).lines
          ∧ (s = "" ++ "├── " ++ displayName pC5
              ∨ s = "" ++ "└── " ++ displayName pC5)) :=
  C5_override_resurrects_amended cfgC5w rootC5 "" "" 0 0 none none pC5 0
    (by decide) (by decide) (by decide) (by decide)

/-- A record produced by one depth-pruned iteration either was already in
the accumulator or stems from the processed cutoff, with skipped levels at
least one and total depth equal to cutoff depth plus skipped levels. -/
theorem mem_depthPrunedStep {cfg : Config} {root : FSNode}
    {acc : List (String × (Nat × Nat × Nat × Nat))} {rc : String × Nat}
    {x : String × (Nat × Nat × Nat × Nat)}
    (h : x ∈ depthPrunedStep cfg root acc rc) :
    x ∈ acc ∨ (x.1 = rc.1 ∧ 1 ≤ x.2.2.1 ∧ x.2.1 = rc.2 + x.2.2.1) := by
  simp only [depthPrunedStep] at h
  split at h
  · split at h
    · split at h
      · rcases List.mem_append.mp h with h1 | h2
        · exact Or.inl h1
        · right
          have hx := List.mem_singleton.mp h2
          subst hx
          refine ⟨rfl, by simp; try omega, by simp; try omega⟩
      · exact Or.inl h
    · exact Or.inl h
  · exact Or.inl h

/-- Folding the depth-pruned step only ever appends cutoff-derived
records. -/
theorem mem_foldl_depthPrunedStep (cfg : Config) (root : FSNode) :
    ∀ (cuts : List (String × Nat)) (acc : List (String × (Nat × Nat × Nat × Nat)))
      (x : String × (Nat × Nat × Nat × Nat)),
      x ∈ cuts.foldl (depthPrunedStep cfg root) acc →
      x ∈ acc ∨ ∃ cd, (x.1, cd) ∈ cuts ∧ 1 ≤ x.2.2.1 ∧ x.2.1 = cd + x.2.2.1 := by
  intro cuts
  induction cuts with
  | nil => intro acc x h; exact Or.inl h
  | cons rc cuts ih =>
    intro acc x h
    rcases ih _ x h with h1 | ⟨cd, hcd, hs⟩
    · rcases mem_depthPrunedStep h1 with h2 | ⟨he1, he2, he3⟩
      · exact Or.inl h2
      · right
        refine ⟨rc.2, ?_, he2, he3⟩
        rw [he1]
        exact List.mem_cons_self _ _
    · exact Or.inr ⟨cd, List.mem_cons_of_mem _ hcd, hs⟩

/-- The depth-pruned step never removes records. -/
theorem subset_depthPrunedStep (cfg : Config) (root : FSNode)
    (acc : List (String × (Nat × Nat × Nat × Nat))) (rc : String × Nat) :
    acc ⊆ depthPrunedStep cfg root acc rc := by
  intro x hx
  simp only [depthPrunedStep]
  split
  · split
    · split
      · exact List.mem_append_left _ hx
      · exact hx
    · exact hx
  · exact hx

/-- Folding the depth-pruned step never removes records. -/
theorem subset_foldl_depthPrunedStep (cfg : Config) (root : FSNode) :
    ∀ (cuts : List (String × Nat)) (acc : List (String × (Nat × Nat × Nat × Nat))),
      acc ⊆ cuts.foldl (depthPrunedStep cfg root) acc := by
  intro cuts
  induction cuts with
  | nil => intro acc x hx; exact hx
  | cons rc cuts ih =>
    intro acc x hx
    exact ih _ (subset_depthPrunedStep cfg root acc rc hx)

/-- Processing a cutoff whose directory still exists and has a positive
scanned depth appends exactly the claimed record. -/
theorem depthPrunedStep_adds (cfg : Config) (root : FSNode)
    (acc : List (String × (Nat × Nat × Nat × Nat))) (rel : String) (cd : Nat)
    (p : FSNode) (rd fd ff : Nat)
    (hf : findNode root (relSegs rel) = some p)
    (hdir : isDirFollow p = true)
    (hscan : scanStats cfg p (stripSlash rel) (depthLimitValueForReports cfg)
      = (rd, fd, ff))
    (hrd : 1 ≤ rd) :
    (rel, (cd + rd, rd, fd, ff)) ∈ depthPrunedStep cfg root acc (rel, cd) := by
  have hpos : 0 < rd := hrd
  simp [depthPrunedStep, hf, hdir, hscan, Nat.add_sub_cancel_left, hpos]

/-- Existence direction: every staged cutoff whose directory still exists
and whose bounded scan reaches at least one level yields its record. -/
theorem computeDepthPruned_exists (cfg : Config) (root : FSNode)
    (rel : String) (cd : Nat) (p : FSNode) (rd fd ff : Nat)
    (hf : findNode root (relSegs rel) = some p)
    (hdir : isDirFollow p = true)
    (hscan : scanStats cfg p (stripSlash rel) (depthLimitValueForReports cfg)
      = (rd, fd, ff))
    (hrd : 1 ≤ rd) :
    ∀ (cutoffs : List (String × Nat)), (rel, cd) ∈ cutoffs →
      (rel, (cd + rd, rd, fd, ff)) ∈ computeDepthPruned cfg root cutoffs := by
  have key : ∀ (cuts : List (String × Nat))
      (acc : List (String × (Nat × Nat × Nat × Nat))), (rel, cd) ∈ cuts →
      (rel, (cd + rd, rd, fd, ff)) ∈ cuts.foldl (depthPrunedStep cfg root) acc := by
    intro cuts
    induction cuts with
    | nil => intro acc h; simp at h
    | cons rc cuts ih =>
      intro acc h
      rcases List.mem_cons.mp h with h1 | h2
      · subst h1
        exact subset_foldl_depthPrunedStep cfg root cuts _
          (depthPrunedStep_adds cfg root acc rel cd p rd fd ff hf hdir hscan hrd)
      · exact ih _ h2
  intro cutoffs hmem
  exact key cutoffs [] hmem

/-- Case analysis of the cutoffs one walk-loop iteration produces: either
the global-limit branch recorded this child at depth `depth + 1` with the
global budget exhausted there, or the cutoff came out of the recursive
call. -/
theorem walkChild_cutoffs_cases {cfg : Config} {p : FSNode} {isLast : Bool}
    {currRel pre : String} {depth : Nat}
    {recur : String → String → Nat → Option Int → Option Int → WalkOut}
    {pr : String × Nat}
    (h : pr ∈ (walkChild cfg p isLast currRel pre depth recur).cutoffs) :
    (pr = (relOf currRel p.name ++ "/", depth + 1)
      ∧ ∃ g, effectiveGlobalRemaining cfg (depth + 1) = some g ∧ g ≤ 0)
    ∨ ∃ r2 p2 d2 o1 o2, pr ∈ (recur r2 p2 d2 o1 o2).cutoffs := by
  simp only [walkChild] at h
  split at h
  · simp at h
  · split at h
    · simp at h
    · split at h
      · split at h
        · simp at h
        · exact Or.inr ⟨_, _, _, _, _, h⟩
      · split at h
        · exact Or.inr ⟨_, _, _, _, _, h⟩
        · split at h
          · rename_i hg _
            left
            refine ⟨by simpa using h, _, hg, by assumption⟩
          · exact Or.inr ⟨_, _, _, _, _, h⟩

/-- Every cutoff the walk stages sits at a depth where the global limit is
active and exhausted: cut-offs arise only from the global depth budget. -/
theorem walk_cutoffs_global (cfg : Config) :
    ∀ (fuel : Nat) (curr : FSNode) (currRel pre : String) (depth : Nat)
      (g o : Option Int) (pr : String × Nat),
      pr ∈ (walk fuel cfg curr currRel pre depth g o).cutoffs →
      ∃ gg, effectiveGlobalRemaining cfg pr.2 = some gg ∧ gg ≤ 0 := by
  intro fuel
  induction fuel with
  | zero =>
    intro curr currRel pre depth g o pr h
    simp [walk] at h
  | succ f ih =>
    intro curr currRel pre depth g o pr h
    simp only [walk] at h
    rcases List.mem_flatten.mp h with ⟨l, hl, hpr⟩
    rcases List.mem_map.mp hl with ⟨w, hw, rfl⟩
    rcases List.mem_map.mp hw with ⟨ip, _, rfl⟩
    rcases walkChild_cutoffs_cases hpr with ⟨hpr1, gg, hgg, hle⟩ | ⟨r2, p2, d2, o1, o2, hsub⟩
    · subst hpr1
      exact ⟨gg, hgg, hle⟩
    · exact ih ip.2 r2 p2 d2 o1 o2 pr hsub

/-- A child stopped by an exhausted override budget stages no depth
cutoff (its branch of the walk loop records nothing). -/
theorem walkChild_override_stop_no_cutoffs (cfg : Config) (p : FSNode)
    (isLast : Bool) (currRel pre : String) (depth : Nat)
    (recur : String → String → Nat → Option Int → Option Int → WalkOut) (r : Int)
    (hov : (overrideFor cfg p.name (relOf currRel p.name) true).bind
      remainingFromOverride = some r)
    (hr : r ≤ 0) :
    (walkChild cfg p isLast currRel pre depth recur).cutoffs = [] := by
  simp only [walkChild]
  split
  · rfl
  · split
    · rfl
    · rw [hov]
      simp [hr]

/-- C4: depth-pruned records arise only from the global depth limit.
Every record stems from a staged global cutoff with
`skippedLevels = totalAbsoluteDepth - cutoffAbsoluteDepth ≥ 1` (so a
record whose skipped-level count would be `≤ 0` is never reported); every
global cutoff whose directory still exists and scans at least one level
deep yields its record; every staged cutoff sits at a depth where the
global budget is active and exhausted; and a child stopped by an
exhausted override budget stages no cutoff at all. -/
theorem C4_depth_pruned_only_global :
    (∀ (cfg : Config) (root : FSNode) (cutoffs : List (String × Nat))
        (x : String × (Nat × Nat × Nat × Nat)),
        x ∈ computeDepthPruned cfg root cutoffs →
        ∃ cd, (x.1, cd) ∈ cutoffs ∧ 1 ≤ x.2.2.1 ∧ x.2.1 = cd + x.2.2.1)
    ∧ (∀ (cfg : Config) (root : FSNode) (cutoffs : List (String × Nat))
        (rel : String) (cd : Nat) (p : FSNode) (rd fd ff : Nat),
        (rel, cd) ∈ cutoffs →
        findNode root (relSegs rel) = some p →
        isDirFollow p = true →
        scanStats cfg p (stripSlash rel) (depthLimitValueForReports cfg)
          = (rd, fd, ff) →
        1 ≤ rd →
        (rel, (cd + rd, rd, fd, ff)) ∈ computeDepthPruned cfg root cutoffs)
    ∧ (∀ (cfg : Config) (fuel : Nat) (curr : FSNode) (currRel pre : String)
        (depth : Nat) (g o : Option Int) (pr : String × Nat),
        pr ∈ (walk fuel cfg curr currRel pre depth g o).cutoffs →
        ∃ gg, effectiveGlobalRemaining cfg pr.2 = some gg ∧ gg ≤ 0)
    ∧ (∀ (cfg : Config) (p : FSNode) (isLast : Bool) (currRel pre : String)
        (depth : Nat)
        (recur : String → String → Nat → Option Int → Option Int → WalkOut)
        (r : Int),
        (overrideFor cfg p.name (relOf currRel p.name) true).bind
          remainingFromOverride = some r →
        r ≤ 0 →
        (walkChild cfg p isLast currRel pre depth recur).cutoffs = []) := by
  refine ⟨?_, ?_, ?_, ?_⟩
  · intro cfg root cutoffs x h
    rcases mem_foldl_depthPrunedStep cfg root cutoffs [] x h with h1 | h2
    · simp at h1
    · exact h2
  · intro cfg root cutoffs rel cd p rd fd ff hmem hf hdir hscan hrd
    exact computeDepthPruned_exists cfg root rel cd p rd fd ff hf hdir hscan hrd
      cutoffs hmem
  · intro cfg fuel curr currRel pre depth g o pr h
    exact walk_cutoffs_global cfg fuel curr currRel pre depth g o pr h
  · intro cfg p isLast currRel pre depth recur r hov hr
    exact walkChild_override_stop_no_cutoffs cfg p isLast currRel pre depth
      recur r hov hr

/-- Witness for C4 at a concrete input: with `max_depth = 2` on
`root/docs/a/b`, the walk stages the cutoff `("docs/a/", 2)` and the
report holds exactly the record with total depth 3 and one skipped
level. -/
theorem C4_witness :
    ("docs/a/", (3, 1, 1, 0)) ∈ computeDepthPruned cfgC1a fsC1 [("docs/a/", 2)]
    ∧ (walkTree cfgC1a fsC1).2.1 = [("docs/a/", 2)] := by
  constructor
  · have h := C4_depth_pruned_only_global.2.1 cfgC1a fsC1 [("docs/a/", 2)]
      "docs/a/" 2 (.dir "a" true [.dir "b" true []]) 1 1 0
      (by decide) rfl (by decide) (by decide) (by decide)
    exact h
  · decide

/-- The scan loop on an empty queue returns its accumulators. -/
theorem scanBFS_nil (fuel : Nat) (cfg : Config) (lim : Option Int)
    (m fo fi : Nat) : scanBFS fuel cfg [] lim m fo fi = (m, fo, fi) := by
  cases fuel <;> rfl

/-- C9: a directory whose enumeration fails behaves exactly like a
directory with zero children.  The walk output of an unreadable directory
equals that of a readable empty one for every fuel and budget; the scanner
measures it as `(0, 0, 0)`; and popping it from the scan queue leaves all
accumulators and the rest of the queue untouched, so neither traversal
aborts and no other directory's results change. -/
theorem C9_enumeration_failure_zero_children :
    (∀ (fuel : Nat) (cfg : Config) (nm : String) (ch : List FSNode)
        (currRel pre : String) (depth : Nat) (g o : Option Int),
      walk fuel cfg (.dir nm false ch) currRel pre depth g o
        = walk fuel cfg (.dir nm true []) currRel pre depth g o)
    ∧ (∀ (cfg : Config) (nm : String) (ch : List FSNode) (rel : String)
        (lim : Option Int),
      scanStats cfg (.dir nm false ch) rel lim = (0, 0, 0)
      ∧ scanStats cfg (.dir nm true []) rel lim = (0, 0, 0))
    ∧ (∀ (fuel : Nat) (cfg : Config) (nm : String) (ch : List FSNode)
        (rel : String) (d : Nat) (rest : List (FSNode × String × Nat))
        (lim : Option Int) (m fo fi : Nat),
      scanBFS (fuel + 1) cfg ((.dir nm false ch, rel, d) :: rest) lim m fo fi
        = scanBFS fuel cfg rest lim m fo fi) := by
  have hscan0 : ∀ (cfg : Config) (start : FSNode) (rel : String)
      (lim : Option Int), readableChildren start = [] →
      scanStats cfg start rel lim = (0, 0, 0) := by
    intro cfg start rel lim hrc
    obtain ⟨k, hk⟩ : ∃ k, nodeSize start = k + 1 := by
      cases start with
      | dir nm r ch => exact ⟨nodeSizeList ch, by simp [nodeSize, Nat.add_comm]⟩
      | file nm => exact ⟨0, rfl⟩
      | link nm t => exact ⟨0, rfl⟩
    rw [scanStats, hk]
    simp only [scanBFS, hrc, List.foldl_nil]
    split
    · exact scanBFS_nil k cfg lim 0 0 0
    · simpa using scanBFS_nil k cfg lim 0 0 0
  refine ⟨?_, ?_, ?_⟩
  · intro fuel cfg nm ch currRel pre depth g o
    cases fuel with
    | zero => rfl
    | succ f => simp [walk, visibleChildren, iterEntries, stagedExcluded, sortBy]
  · intro cfg nm ch rel lim
    exact ⟨hscan0 cfg _ rel lim rfl, hscan0 cfg _ rel lim rfl⟩
  · intro fuel cfg nm ch rel d rest lim m fo fi
    simp only [scanBFS, readableChildren, List.foldl_nil]
    split
    · rfl
    · simp

/-- C10: symbolic links are leaves.  With directories-first ordering a
symlink (even one targeting a directory) is grouped with the non-directory
entries; the walk renders it as a single line without a trailing slash and
never descends into it or stages anything for it; and the scanner counts a
symlink to a directory neither as a folder nor as a file and never expands
it. -/
theorem C10_symlink_is_leaf :
    (∀ (cfg : Config) (nm : String) (ch : List FSNode) (p : FSNode),
      cfg.listDirsFirst = true → isSymlink p = true → p ∈ ch →
      iterEntries cfg (.dir nm true ch)
        = sortBy (nameLe cfg) (ch.filter isRealDir)
          ++ sortBy (nameLe cfg) (ch.filter (fun q => !(isRealDir q)))
      ∧ p ∈ sortBy (nameLe cfg) (ch.filter (fun q => !(isRealDir q)))
      ∧ p ∉ sortBy (nameLe cfg) (ch.filter isRealDir))
    ∧ (∀ (cfg : Config) (p : FSNode) (isLast : Bool) (currRel pre : String)
        (depth : Nat)
        (recur : String → String → Nat → Option Int → Option Int → WalkOut),
      isSymlink p = true →
      walkChild cfg p isLast currRel pre depth recur
        = ⟨[pre ++ (if isLast then "└── " else "├── ") ++ p.name], [], []⟩)
    ∧ (∀ (cfg : Config) (parentRel : String) (d : Nat)
        (acc : Nat × Nat × Nat × List (FSNode × String × Nat)) (nm : String),
      scanChild cfg parentRel d acc (.link nm .toDir) = acc) := by
  refine ⟨?_, ?_, ?_⟩
  · intro cfg nm ch p hld hsym hp
    refine ⟨by simp [iterEntries, hld], ?_, ?_⟩
    · exact mem_sortBy.mpr
        (List.mem_filter.mpr ⟨hp, by simp [isRealDir, hsym]⟩)
    · intro hmem
      have h2 := (List.mem_filter.mp (mem_sortBy.mp hmem)).2
      simp [isRealDir, hsym] at h2
  · intro cfg p isLast currRel pre depth recur hsym
    have hrd : isRealDir p = false := by simp [isRealDir, hsym]
    cases isLast <;> simp [walkChild, hrd, displayName]
  · intro cfg parentRel d acc nm
    simp only [scanChild]
    split
    · rfl
    · simp [isRealDir, isFileFollow, isSymlink, isDirFollow]

/-- Witness for C10 at a concrete input. -/
theorem C10_witness :
    walkChild cfgBase pL true "" "" 0 (fun _ _ _ _ _ => ⟨[], [], []⟩)
      = ⟨["└── ln"], [], []⟩
    ∧ scanChild cfgBase "" 0 (0, 0, 0, []) pL = (0, 0, 0, [])
    ∧ pL ∈ sortBy (nameLe cfgBase) ([dL, pL].filter (fun q => !(isRealDir q))) := by
  refine ⟨?_, ?_, ?_⟩
  · have h := C10_symlink_is_leaf.2.1 cfgBase pL true "" "" 0
      (fun _ _ _ _ _ => ⟨[], [], []⟩) rfl
    exact h.trans (by decide)
  · exact C10_symlink_is_leaf.2.2 cfgBase "" 0 (0, 0, 0, []) "ln"
  · exact (C10_symlink_is_leaf.1 cfgBase "r" [dL, pL] pL rfl rfl
      (by simp)).2.1

/-- C8: each report footer totals the per-record folder and file counts
over all qualifying records, not only the at-most-four displayed rows: the
depth-pruned footer sums the stored counts of every record, and the
rule-excluded footer sums the re-scanned counts of every record. -/
theorem C8_footer_totals (cfg : Config) (root : FSNode)
    (dp : List (String × (Nat × Nat × Nat × Nat))) (re : List (String × String))
    (hmd : cfg.maxDepth ≠ 0) (hdp : dp ≠ []) (hre : re ≠ []) :
    ("- Skipped Total: " ++ fmtInt ((dp.map (fun x => x.2.2.2.1)).sum)
        ++ " Folders | " ++ fmtInt ((dp.map (fun x => x.2.2.2.2)).sum)
        ++ " Files")
      ∈ renderDepthPruned cfg dp
    ∧ ("- Skipped Total: "
        ++ fmtInt ((re.map (fun x =>
            (scanCountsAt cfg root x.1 (depthLimitValueForReports cfg)).1)).sum)
        ++ " Folders | "
        ++ fmtInt ((re.map (fun x =>
            (scanCountsAt cfg root x.1 (depthLimitValueForReports cfg)).2)).sum)
        ++ " Files")
      ∈ renderRuleExcluded cfg root re := by
  constructor
  · have hbeq : (cfg.maxDepth == 0) = false := by
      simp [hmd]
    have hemp : dp.isEmpty = false := by
      simpa [List.isEmpty_iff] using hdp
    have hsf : ((sortBy (fun a b => !(strLt (strLower b.1) (strLower a.1))) dp).map
        (fun x => x.2.2.2.1)).sum = (dp.map (fun x => x.2.2.2.1)).sum :=
      ((sortBy_perm _ dp).map _).sum_eq
    have hss : ((sortBy (fun a b => !(strLt (strLower b.1) (strLower a.1))) dp).map
        (fun x => x.2.2.2.2)).sum = (dp.map (fun x => x.2.2.2.2)).sum :=
      ((sortBy_perm _ dp).map _).sum_eq
    simp only [renderDepthPruned, hbeq, hemp]
    rw [← hsf, ← hss]
    simp
  · have hemp : re.isEmpty = false := by
      simpa [List.isEmpty_iff] using hre
    simp only [renderRuleExcluded, hemp]
    simp

/-- Witness for C8: the example of the claim — per-record counts
`(2, 1)`, `(0, 5)`, `(1, 0)` yield footer `3 Folders | 6 Files`;
the depth-pruned block totals its single record likewise. -/
theorem C8_witness :
    "- Skipped Total: 3 Folders | 6 Files" ∈ renderRuleExcluded cfgC8 fsC8 reC8
    ∧ "- Skipped Total: 2 Folders | 1 Files"
      ∈ renderDepthPruned cfgC8 [("x/", (3, 1, 2, 1))] := by
  have h := C8_footer_totals cfgC8 fsC8 [("x/", (3, 1, 2, 1))] reC8
    (by decide) (by decide) (by decide)
  constructor
  · have he : "- Skipped Total: "
        ++ fmtInt ((reC8.map (fun x =>
            (scanCountsAt cfgC8 fsC8 x.1 (depthLimitValueForReports cfgC8)).1)).sum)
        ++ " Folders | "
        ++ fmtInt ((reC8.map (fun x =>
            (scanCountsAt cfgC8 fsC8 x.1 (depthLimitValueForReports cfgC8)).2)).sum)
        ++ " Files" = "- Skipped Total: 3 Folders | 6 Files" := by decide
    exact he ▸ h.2
  · have he : "- Skipped Total: "
        ++ fmtInt (([(("x/" : String), ((3 : Nat), (1 : Nat), (2 : Nat), (1 : Nat)))].map
            (fun x => x.2.2.2.1)).sum)
        ++ " Folders | "
        ++ fmtInt (([(("x/" : String), ((3 : Nat), (1 : Nat), (2 : Nat), (1 : Nat)))].map
            (fun x => x.2.2.2.2)).sum)
        ++ " Files" = "- Skipped Total: 2 Folders | 1 Files" := by decide
    exact he ▸ h.1

/-- Digit characters of small values are never a slash. -/
theorem digitChar_lt_ten_ne_slash : ∀ m : Nat, m < 10 → Nat.digitChar m ≠ '/' := by
  intro m hm
  interval_cases m <;> decide

/-- No slash ever enters the digit accumulator of `Nat.toDigitsCore`. -/
theorem toDigitsCore10_ne_slash : ∀ (f n : Nat) (acc : List Char),
    (∀ c ∈ acc, c ≠ '/') → ∀ c ∈ Nat.toDigitsCore 10 f n acc, c ≠ '/' := by
  intro f
  induction f with
  | zero =>
    intro n acc hacc c hc
    simp only [Nat.toDigitsCore] at hc
    exact hacc c hc
  | succ f ih =>
    intro n acc hacc c hc
    simp only [Nat.toDigitsCore] at hc
    have hmod : Nat.digitChar (n % 10) ≠ '/' :=
      digitChar_lt_ten_ne_slash _ (Nat.mod_lt _ (by decide))
    have hacc2 : ∀ c ∈ Nat.digitChar (n % 10) :: acc, c ≠ '/' := by
      intro c' hc'
      rcases List.mem_cons.mp hc' with h1 | h2
      · exact h1 ▸ hmod
      · exact hacc c' h2
    split at hc
    · exact hacc2 c hc
    · exact ih (n / 10) _ hacc2 c hc

/-- The decimal representation of a natural number contains no slash. -/
theorem natRepr_ne_slash (n : Nat) : '/' ∉ (toString n).data := by
  intro hmem
  have h2 : (toString n).data = Nat.toDigits 10 n := by
    simp [toString, Nat.repr, List.asString]
  rw [h2, Nat.toDigits] at hmem
  exact toDigitsCore10_ne_slash (n + 1) n [] (by simp) '/' hmem rfl

/-- `splitSlash` never returns the empty list of segments. -/
theorem splitSlash_ne_nil : ∀ (l : List Char), splitSlash l ≠ [] := by
  intro l
  induction l with
  | nil => simp [splitSlash]
  | cons c t ih =>
    simp only [splitSlash]
    split
    · simp
    · split
      · simp
      · simp

/-- Splitting after a slash-free segment and a separator peels the
segment. -/
theorem splitSlash_append_sep : ∀ (s l : List Char), '/' ∉ s →
    splitSlash (s ++ '/' :: l) = s :: splitSlash l := by
  intro s
  induction s with
  | nil => intro l _; simp [splitSlash]
  | cons c t ih =>
    intro l hs
    have hc : (c == '/') = false := by
      simp only [beq_eq_false_iff_ne]
      intro h
      exact hs (h ▸ List.mem_cons_self c t)
    have ht : '/' ∉ t := fun h => hs (List.mem_cons_of_mem c h)
    simp only [List.cons_append, splitSlash, hc, Bool.false_eq_true, if_false,
      List.append_eq]
    rw [ih l ht]

/-- A slash-free list splits into itself. -/
theorem splitSlash_noslash : ∀ (s : List Char), '/' ∉ s → splitSlash s = [s] := by
  intro s
  induction s with
  | nil => intro _; rfl
  | cons c t ih =>
    intro hs
    have hc : (c == '/') = false := by
      simp only [beq_eq_false_iff_ne]
      intro h
      exact hs (h ▸ List.mem_cons_self c t)
    have ht : '/' ∉ t := fun h => hs (List.mem_cons_of_mem c h)
    simp only [splitSlash, hc, Bool.false_eq_true, if_false]
    rw [ih ht]

/-- `splitSlash` inverts `joinSlash` on nonempty slash-free segments. -/
theorem splitSlash_joinSlash : ∀ (segs : List (List Char)), segs ≠ [] →
    (∀ s ∈ segs, '/' ∉ s) → splitSlash (joinSlash segs) = segs := by
  intro segs
  induction segs with
  | nil => intro h _; exact absurd rfl h
  | cons s ss ih =>
    intro _ hall
    cases ss with
    | nil => exact splitSlash_noslash s (hall s (by simp))
    | cons s2 ss2 =>
      rw [show joinSlash (s :: s2 :: ss2) = s ++ '/' :: joinSlash (s2 :: ss2) from rfl]
      rw [splitSlash_append_sep s _ (hall s (by simp))]
      rw [ih (by simp) (fun x hx => hall x (List.mem_cons_of_mem _ hx))]

/-- `joinSlash` of a nonempty segment list starts with its first segment. -/
theorem joinSlash_shape (s : List Char) (ss : List (List Char)) :
    ∃ t, joinSlash (s :: ss) = s ++ t := by
  cases ss with
  | nil => exact ⟨[], (List.append_nil s).symm⟩
  | cons a t => exact ⟨'/' :: joinSlash (a :: t), rfl⟩

/-- `joinSlash` distributes over an append of nonempty segment lists. -/
theorem joinSlash_append : ∀ (xs ys : List (List Char)), xs ≠ [] → ys ≠ [] →
    joinSlash (xs ++ ys) = joinSlash xs ++ '/' :: joinSlash ys := by
  intro xs
  induction xs with
  | nil => intro ys h _; exact absurd rfl h
  | cons x xs ih =>
    intro ys _ hys
    cases xs with
    | nil =>
      cases ys with
      | nil => exact absurd rfl hys
      | cons y ys2 => rfl
    | cons x2 xs2 =>
      simp only [List.cons_append]
      rw [show joinSlash (x :: x2 :: (xs2 ++ ys))
          = x ++ '/' :: joinSlash (x2 :: (xs2 ++ ys)) from rfl]
      rw [show joinSlash (x :: x2 :: xs2)
          = x ++ '/' :: joinSlash (x2 :: xs2) from rfl]
      have := ih ys (by simp) hys
      simp only [List.cons_append] at this
      rw [this]
      simp

/-- `joinSlash` of nonempty slash-free segments ends with a non-slash
character. -/
theorem getLast?_joinSlash : ∀ (segs : List (List Char)), segs ≠ [] →
    (∀ s ∈ segs, s ≠ [] ∧ '/' ∉ s) →
    ∃ c, (joinSlash segs).getLast? = some c ∧ c ≠ '/' := by
  intro segs
  induction segs with
  | nil => intro h _; exact absurd rfl h
  | cons s ss ih =>
    intro _ hall
    cases ss with
    | nil =>
      obtain ⟨hne, hns⟩ := hall s (by simp)
      have hj : joinSlash [s] = s := rfl
      refine ⟨s.getLast (by simpa using hne), ?_, ?_⟩
      · rw [hj]
        exact List.getLast?_eq_getLast s _
      · intro hc
        exact hns (hc ▸ List.getLast_mem _)
    | cons s2 ss2 =>
      obtain ⟨c, hc, hcs⟩ := ih (by simp)
        (fun x hx => hall x (List.mem_cons_of_mem _ hx))
      refine ⟨c, ?_, hcs⟩
      rw [show joinSlash (s :: s2 :: ss2)
          = s ++ '/' :: joinSlash (s2 :: ss2) from rfl]
      rw [List.getLast?_append_of_ne_nil s (by simp)]
      obtain ⟨t, ht⟩ := joinSlash_shape s2 ss2
      obtain ⟨hs2ne, _⟩ := hall s2 (by simp)
      obtain ⟨c2, t2, hs2⟩ := List.exists_cons_of_ne_nil hs2ne
      rw [ht, hs2, List.cons_append, List.getLast?_cons_cons,
        ← List.cons_append, ← hs2, ← ht]
      exact hc

/-- Dropping trailing slashes from a list ending in a non-slash character
is the identity. -/
theorem dropWhile_reverse_of_getLast (l : List Char) (c : Char)
    (hl : l.getLast? = some c) (hc : (c == '/') = false) :
    l.reverse.dropWhile (fun x => x == '/') = l.reverse := by
  have hh : l.reverse.head? = some c := by rw [List.head?_reverse]; exact hl
  cases hr : l.reverse with
  | nil => rfl
  | cons a t =>
    rw [hr] at hh
    have ha : a = c := by simpa using hh
    subst ha
    simp [List.dropWhile_cons, hc]

/-- `rstrip("/")` is the identity on joined nonempty slash-free
segments. -/
theorem rstrip_joinSlash (segs : List (List Char)) (h1 : segs ≠ [])
    (h2 : ∀ s ∈ segs, s ≠ [] ∧ '/' ∉ s) :
    ((joinSlash segs).reverse.dropWhile (fun c => c == '/')).reverse
      = joinSlash segs := by
  obtain ⟨c, hc, hcs⟩ := getLast?_joinSlash segs h1 h2
  rw [dropWhile_reverse_of_getLast _ c hc (by simpa using hcs),
    List.reverse_reverse]

/-- Joined nonempty segments form a nonempty list. -/
theorem joinSlash_ne_nil (segs : List (List Char)) (h1 : segs ≠ [])
    (h2 : ∀ s ∈ segs, s ≠ []) : joinSlash segs ≠ [] := by
  obtain ⟨s, ss, rfl⟩ := List.exists_cons_of_ne_nil h1
  obtain ⟨t, ht⟩ := joinSlash_shape s ss
  obtain ⟨c, t2, hs⟩ := List.exists_cons_of_ne_nil (h2 s (by simp))
  rw [ht, hs]
  simp

/-- A slash-free run followed by one slash has no doubled slash. -/
theorem hasAdjSlash_append_single : ∀ (s : List Char), '/' ∉ s →
    hasAdjSlash (s ++ ['/']) = false := by
  intro s
  induction s with
  | nil => intro _; rfl
  | cons c t ih =>
    intro hs
    have hc : (c == '/') = false := by
      simp only [beq_eq_false_iff_ne]
      intro h
      exact hs (h ▸ List.mem_cons_self c t)
    have ht : '/' ∉ t := fun h => hs (List.mem_cons_of_mem c h)
    cases t with
    | nil => simp [hasAdjSlash, hc]
    | cons c2 t2 =>
      simp only [List.cons_append]
      rw [show hasAdjSlash (c :: c2 :: (t2 ++ ['/']))
          = ((c == '/' && c2 == '/') || hasAdjSlash (c2 :: (t2 ++ ['/']))) from rfl]
      have hih := ih ht
      simp only [List.cons_append] at hih
      rw [hih, hc]
      rfl

/-- Prepending a slash-free run to a string starting with a single slash
introduces no doubled slash. -/
theorem hasAdjSlash_append_sep : ∀ (s r : List Char), '/' ∉ s → s ≠ [] →
    hasAdjSlash ('/' :: r) = false → hasAdjSlash (s ++ '/' :: r) = false := by
  intro s
  induction s with
  | nil => intro r _ h _; exact absurd rfl h
  | cons c t ih =>
    intro r hs _ hr
    have hc : (c == '/') = false := by
      simp only [beq_eq_false_iff_ne]
      intro h
      exact hs (h ▸ List.mem_cons_self c t)
    have ht : '/' ∉ t := fun h => hs (List.mem_cons_of_mem c h)
    cases t with
    | nil => simpa [hasAdjSlash, hc] using hr
    | cons c2 t2 =>
      simp only [List.cons_append]
      rw [show hasAdjSlash (c :: c2 :: (t2 ++ '/' :: r))
          = ((c == '/' && c2 == '/') || hasAdjSlash (c2 :: (t2 ++ '/' :: r))) from rfl]
      have hih := ih r ht (by simp) hr
      simp only [List.cons_append] at hih
      rw [hih, hc]
      rfl

/-- Joining nonempty slash-free segments and appending the trailing slash
yields no doubled slash. -/
theorem hasAdjSlash_joinSlash : ∀ (segs : List (List Char)), segs ≠ [] →
    (∀ s ∈ segs, s ≠ [] ∧ '/' ∉ s) →
    hasAdjSlash (joinSlash segs ++ ['/']) = false := by
  intro segs
  induction segs with
  | nil => intro h _; exact absurd rfl h
  | cons s ss ih =>
    intro _ hall
    cases ss with
    | nil => exact hasAdjSlash_append_single s (hall s (by simp)).2
    | cons s2 ss2 =>
      obtain ⟨hs_ne, hs_ns⟩ := hall s (by simp)
      have hrec := ih (by simp) (fun x hx => hall x (List.mem_cons_of_mem _ hx))
      rw [show joinSlash (s :: s2 :: ss2)
          = s ++ '/' :: joinSlash (s2 :: ss2) from rfl]
      rw [List.append_assoc]
      refine hasAdjSlash_append_sep s _ hs_ns hs_ne ?_
      obtain ⟨t, ht⟩ := joinSlash_shape s2 ss2
      obtain ⟨c2, t2, hs2⟩ := List.exists_cons_of_ne_nil (hall s2 (by simp)).1
      have hc2 : (c2 == '/') = false := by
        simp only [beq_eq_false_iff_ne]
        intro h
        exact (hall s2 (by simp)).2 (h ▸ (hs2 ▸ List.mem_cons_self c2 t2))
      have hshape : joinSlash (s2 :: ss2) ++ ['/'] = c2 :: (t2 ++ t ++ ['/']) := by
        rw [ht, hs2]
        simp
      simp only [List.append_eq]
      rw [hshape]
      rw [show hasAdjSlash ('/' :: c2 :: (t2 ++ t ++ ['/']))
          = (('/' == '/' && c2 == '/') || hasAdjSlash (c2 :: (t2 ++ t ++ ['/']))) from rfl]
      rw [hc2, ← hshape, hrec]
      rfl

/-- C7: path compression is the identity (plus trailing slash) on
relative paths of at most five nonempty slash-free segments; on longer
paths it keeps exactly the first three and last two segments around an
ellipsis marker carrying the omitted count, slash-joined with a trailing
slash; the empty path becomes `./`; and the output never contains a
doubled slash.  (Determinism is immediate: `compressPath` is a pure
function.) -/
theorem C7_compress_path (segs : List (List Char))
    (hne : segs ≠ []) (hseg : ∀ s ∈ segs, s ≠ [] ∧ '/' ∉ s) :
    compressPath "" = "./"
    ∧ (segs.length ≤ 5 →
        compressPath ⟨joinSlash segs⟩ = ⟨joinSlash segs ++ ['/']⟩)
    ∧ (5 < segs.length →
        compressPath ⟨joinSlash segs⟩
          = ⟨joinSlash (segs.take 3
              ++ ["...(".data ++ (toString (segs.length - 5)).data ++ ")...".data]
              ++ segs.drop (segs.length - 2)) ++ ['/']⟩)
    ∧ hasAdjSlash (compressPath ⟨joinSlash segs⟩).data = false := by
  have hstrip : ((joinSlash segs).reverse.dropWhile (fun c => c == '/')).reverse
      = joinSlash segs := rstrip_joinSlash segs hne hseg
  have hjn : joinSlash segs ≠ [] :=
    joinSlash_ne_nil segs hne (fun s hs => (hseg s hs).1)
  have hempty : (joinSlash segs).isEmpty = false := by
    obtain ⟨a, t, he⟩ := List.exists_cons_of_ne_nil hjn
    rw [he]
    rfl
  have hparts : splitSlash (joinSlash segs) = segs :=
    splitSlash_joinSlash segs hne (fun s hs => (hseg s hs).2)
  have hcommon : compressPath ⟨joinSlash segs⟩
      = (if segs.length ≤ 5 then (⟨joinSlash segs ++ ['/']⟩ : String)
         else ⟨joinSlash (segs.take 3) ++ "/...(".data
            ++ (toString (segs.length - 5)).data ++ ").../".data
            ++ joinSlash (segs.drop (segs.length - 2)) ++ ['/']⟩) := by
    have hdata : (String.mk (joinSlash segs)).data = joinSlash segs := rfl
    simp only [compressPath, hdata, hstrip, hempty, Bool.false_eq_true,
      if_false, hparts]
  have h2 : segs.length ≤ 5 →
      compressPath ⟨joinSlash segs⟩ = ⟨joinSlash segs ++ ['/']⟩ := by
    intro h5
    rw [hcommon, if_pos h5]
  have h3 : 5 < segs.length →
      compressPath ⟨joinSlash segs⟩
        = ⟨joinSlash (segs.take 3
            ++ ["...(".data ++ (toString (segs.length - 5)).data ++ ")...".data]
            ++ segs.drop (segs.length - 2)) ++ ['/']⟩ := by
    intro h5
    rw [hcommon, if_neg (by omega)]
    have htne : segs.take 3 ≠ [] := by
      intro h
      have hlen3 := congrArg List.length h
      rw [List.length_take] at hlen3
      simp only [List.length_nil] at hlen3
      omega
    have hdne : segs.drop (segs.length - 2) ≠ [] := by
      intro h
      have hlen := congrArg List.length h
      rw [List.length_drop] at hlen
      simp only [List.length_nil] at hlen
      omega
    congr 1
    rw [joinSlash_append _ _ (by simp [htne]) hdne]
    rw [joinSlash_append (segs.take 3) _ htne (by simp)]
    rw [show joinSlash [("...(".data ++ (toString (segs.length - 5)).data
        ++ ")...".data)] = "...(".data ++ (toString (segs.length - 5)).data
        ++ ")...".data from rfl]
    rw [show "/...(".data = '/' :: "...(".data from rfl]
    rw [show ").../".data = ")...".data ++ ['/'] from rfl]
    simp [List.append_assoc]
  refine ⟨rfl, h2, h3, ?_⟩
  rcases le_or_lt segs.length 5 with h5 | h5
  · rw [h2 h5]
    exact hasAdjSlash_joinSlash segs hne hseg
  · rw [h3 h5]
    show hasAdjSlash (joinSlash (segs.take 3
      ++ ["...(".data ++ (toString (segs.length - 5)).data ++ ")...".data]
      ++ segs.drop (segs.length - 2)) ++ ['/']) = false
    apply hasAdjSlash_joinSlash
    · simp
    · intro s hs
      rcases List.mem_append.mp hs with hs1 | hs2
      · rcases List.mem_append.mp hs1 with hs3 | hs4
        · exact hseg s (List.mem_of_mem_take hs3)
        · have hse : s = "...(".data ++ (toString (segs.length - 5)).data
              ++ ")...".data := by simpa using hs4
          subst hse
          constructor
          · simp
          · intro hmem
            rcases List.mem_append.mp hmem with hm1 | hm2
            · rcases List.mem_append.mp hm1 with hm3 | hm4
              · simp at hm3
              · exact natRepr_ne_slash _ hm4
            · simp at hm2
      · exact hseg s (List.mem_of_mem_drop hs2)

/-- Witness for C7: seven segments compress to the first three, an
ellipsis with the omitted count, and the last two. -/
theorem C7_witness :
    compressPath ⟨joinSlash segsC7⟩
      = ⟨joinSlash (segsC7.take 3
          ++ ["...(".data ++ (toString (segsC7.length - 5)).data ++ ")...".data]
          ++ segsC7.drop (segsC7.length - 2)) ++ ['/']⟩
    ∧ compressPath "a/b/c/d/e/f/g" = "a/b/c/...(2).../f/g/" := by
  have h := C7_compress_path segsC7 (by decide) (by decide)
  exact ⟨h.2.2.1 (by decide), by decide⟩
